import Mathlib

/-!
Verification of the FlatKV codec and the WebSocket RPC coordinator of
ResoBotMcp (src/gateway/FlatKV.ts, src/gateway/WebSocketRpc.ts).

JavaScript strings are modelled as lists of Unicode scalar values
(`List Char`); byte buffers as `List Nat`.  Fallible code returns
`Except String`.  The stateful coordinator is modelled as explicit state
passing: each entrypoint maps a state to a new state together with the
list of externally observable actions (promise resolutions/rejections,
frames sent, sockets terminated) it performs.
-/

namespace ResoBot

/-- JS strings: sequences of Unicode scalar values. -/
abbrev Str := List Char

deriving instance DecidableEq for Except

/-! ## Hexadecimal helpers -/

/-- Uppercase hex digit for `n < 16` (as produced by
`toString(16).toUpperCase()`). -/
def hexDigitChar (n : Nat) : Char :=
  if n < 10 then Char.ofNat (48 + n) else Char.ofNat (55 + n)

/-- The `b.toString(16).toUpperCase().padStart(2, '0')` for a byte `b < 256`. -/
def hexByte (b : Nat) : Str :=
  [hexDigitChar (b / 16), hexDigitChar (b % 16)]

/-- Value of a hex digit (upper- or lowercase), `none` otherwise. -/
def hexDigitVal? (c : Char) : Option Nat :=
  if 48 ≤ c.toNat ∧ c.toNat ≤ 57 then some (c.toNat - 48)
  else if 65 ≤ c.toNat ∧ c.toNat ≤ 70 then some (c.toNat - 55)
  else if 97 ≤ c.toNat ∧ c.toNat ≤ 102 then some (c.toNat - 87)
  else none

/-- A character that is a hexadecimal digit. -/
def isHexDigitChar (c : Char) : Bool := (hexDigitVal? c).isSome

/-- Numeric value of a hex digit (0 for non-digits). -/
def hexVal (c : Char) : Nat := (hexDigitVal? c).getD 0

/-! ## UTF-8 -/

/-- UTF-8 encoding of one scalar value. -/
def utf8EncodeChar (c : Char) : List Nat :=
  let n := c.toNat
  if n < 0x80 then [n]
  else if n < 0x800 then [0xC0 + n / 64, 0x80 + n % 64]
  else if n < 0x10000 then [0xE0 + n / 4096, 0x80 + n / 64 % 64, 0x80 + n % 64]
  else [0xF0 + n / 262144, 0x80 + n / 4096 % 64, 0x80 + n / 64 % 64, 0x80 + n % 64]

/-- UTF-8 encoding of a string (`Buffer.from(value, 'utf8')`). -/
def utf8Encode (s : Str) : List Nat :=
  (s.map utf8EncodeChar).flatten

/-- Strict decoding of a single UTF-8 sequence starting with byte `b`,
followed by `rest`.  Returns the decoded scalar (or `none` when the
sequence is invalid) and the number of bytes consumed (the maximal
subpart on failure, always at least 1). -/
def utf8DecodeStep (b : Nat) (rest : List Nat) : Option Char × Nat :=
  if b < 0x80 then (some (Char.ofNat b), 1)
  else if b < 0xC2 then (none, 1)
  else if b < 0xE0 then
    match rest with
    | b1 :: _ =>
      if 0x80 ≤ b1 ∧ b1 < 0xC0 then
        (some (Char.ofNat ((b - 0xC0) * 64 + (b1 - 0x80))), 2)
      else (none, 1)
    | [] => (none, 1)
  else if b < 0xF0 then
    match rest with
    | b1 :: rest1 =>
      if (if b = 0xE0 then 0xA0 else 0x80) ≤ b1 ∧ b1 < (if b = 0xED then 0xA0 else 0xC0) then
        match rest1 with
        | b2 :: _ =>
          if 0x80 ≤ b2 ∧ b2 < 0xC0 then
            (some (Char.ofNat ((b - 0xE0) * 4096 + (b1 - 0x80) * 64 + (b2 - 0x80))), 3)
          else (none, 2)
        | [] => (none, 2)
      else (none, 1)
    | [] => (none, 1)
  else if b < 0xF5 then
    match rest with
    | b1 :: rest1 =>
      if (if b = 0xF0 then 0x90 else 0x80) ≤ b1 ∧ b1 < (if b = 0xF4 then 0x90 else 0xC0) then
        match rest1 with
        | b2 :: rest2 =>
          if 0x80 ≤ b2 ∧ b2 < 0xC0 then
            match rest2 with
            | b3 :: _ =>
              if 0x80 ≤ b3 ∧ b3 < 0xC0 then
                (some (Char.ofNat
                  ((b - 0xF0) * 262144 + (b1 - 0x80) * 4096 + (b2 - 0x80) * 64 + (b3 - 0x80))), 4)
              else (none, 3)
            | [] => (none, 3)
          else (none, 2)
        | [] => (none, 2)
      else (none, 1)
    | [] => (none, 1)
  else (none, 1)

/-- The Unicode replacement character. -/
def replacementChar : Char := Char.ofNat 0xFFFD

/-- Lossy UTF-8 decoding with replacement characters
(`Buffer.prototype.toString('utf8')`). -/
def utf8DecodeLossy : List Nat → Str
  | [] => []
  | b :: rest =>
    match utf8DecodeStep b rest with
    | (some c, n) => c :: utf8DecodeLossy (rest.drop (n - 1))
    | (none, n) => replacementChar :: utf8DecodeLossy (rest.drop (n - 1))
termination_by l => l.length
decreasing_by
  all_goals simp only [List.length_cons, List.length_drop]; omega

/-! ### UTF-8 lemmas -/

theorem utf8EncodeChar_ne_nil (c : Char) : utf8EncodeChar c ≠ [] := by
  simp only [utf8EncodeChar]
  split_ifs <;> simp

theorem char_valid_facts (c : Char) :
    c.toNat < 0xD800 ∨ (0xDFFF < c.toNat ∧ c.toNat < 0x110000) := c.valid

/-- Decoding one step of the UTF-8 encoding of a character recovers it,
whatever follows. -/
theorem utf8DecodeStep_encodeChar (c : Char) (tail : List Nat) :
    ∀ b bs, utf8EncodeChar c = b :: bs →
      utf8DecodeStep b (bs ++ tail) = (some c, bs.length + 1) := by
  intro b bs henc
  have hv := char_valid_facts c
  by_cases h1 : c.toNat < 0x80
  · unfold utf8EncodeChar at henc
    rw [if_pos h1] at henc
    obtain ⟨hb, hbs⟩ : b = c.toNat ∧ bs = [] := by
      constructor <;> simp_all
    subst hb hbs
    unfold utf8DecodeStep
    rw [if_pos h1]
    simp [Char.ofNat_toNat]
  · by_cases h2 : c.toNat < 0x800
    · unfold utf8EncodeChar at henc
      rw [if_neg h1, if_pos h2] at henc
      obtain ⟨hb, hbs⟩ : b = 0xC0 + c.toNat / 64 ∧ bs = [0x80 + c.toNat % 64] := by
        constructor <;> simp_all
      subst hb hbs
      unfold utf8DecodeStep
      rw [if_neg (by omega), if_neg (by omega), if_pos (by omega)]
      simp only [List.cons_append, List.nil_append]
      rw [if_pos (by omega)]
      have harg : (0xC0 + c.toNat / 64 - 0xC0) * 64 + (0x80 + c.toNat % 64 - 0x80) = c.toNat := by
        omega
      rw [harg, Char.ofNat_toNat]
      simp
    · by_cases h3 : c.toNat < 0x10000
      · unfold utf8EncodeChar at henc
        rw [if_neg h1, if_neg h2, if_pos h3] at henc
        obtain ⟨hb, hbs⟩ : b = 0xE0 + c.toNat / 4096 ∧
            bs = [0x80 + c.toNat / 64 % 64, 0x80 + c.toNat % 64] := by
          constructor <;> simp_all
        subst hb hbs
        unfold utf8DecodeStep
        rw [if_neg (by omega), if_neg (by omega), if_neg (by omega), if_pos (by omega)]
        simp only [List.cons_append, List.nil_append]
        rw [if_pos (by constructor <;> split <;> omega)]
        rw [if_pos (by omega)]
        have harg : (0xE0 + c.toNat / 4096 - 0xE0) * 4096 +
            (0x80 + c.toNat / 64 % 64 - 0x80) * 64 + (0x80 + c.toNat % 64 - 0x80) = c.toNat := by
          omega
        rw [harg, Char.ofNat_toNat]
        simp
      · unfold utf8EncodeChar at henc
        rw [if_neg h1, if_neg h2, if_neg h3] at henc
        obtain ⟨hb, hbs⟩ : b = 0xF0 + c.toNat / 262144 ∧
            bs = [0x80 + c.toNat / 4096 % 64, 0x80 + c.toNat / 64 % 64, 0x80 + c.toNat % 64] := by
          constructor <;> simp_all
        subst hb hbs
        unfold utf8DecodeStep
        rw [if_neg (by omega), if_neg (by omega), if_neg (by omega), if_neg (by omega),
          if_pos (by omega)]
        simp only [List.cons_append, List.nil_append]
        rw [if_pos (by constructor <;> split <;> omega)]
        rw [if_pos (by omega), if_pos (by omega)]
        have harg : (0xF0 + c.toNat / 262144 - 0xF0) * 262144 +
            (0x80 + c.toNat / 4096 % 64 - 0x80) * 4096 +
            (0x80 + c.toNat / 64 % 64 - 0x80) * 64 + (0x80 + c.toNat % 64 - 0x80) = c.toNat := by
          omega
        rw [harg, Char.ofNat_toNat]
        simp

theorem utf8DecodeLossy_encodeChar (c : Char) (rest : List Nat) :
    utf8DecodeLossy (utf8EncodeChar c ++ rest) = c :: utf8DecodeLossy rest := by
  obtain ⟨b, bs, henc⟩ : ∃ b bs, utf8EncodeChar c = b :: bs := by
    cases h : utf8EncodeChar c with
    | nil => exact absurd h (utf8EncodeChar_ne_nil c)
    | cons x xs => exact ⟨x, xs, rfl⟩
  rw [henc]
  simp only [List.cons_append]
  rw [utf8DecodeLossy]
  rw [utf8DecodeStep_encodeChar c rest b bs henc]
  simp [List.drop_left']

/-- Round trip at the byte level: lossy UTF-8 decoding inverts encoding. -/
theorem utf8DecodeLossy_utf8Encode (s : Str) : utf8DecodeLossy (utf8Encode s) = s := by
  induction s with
  | nil => simp [utf8Encode, utf8DecodeLossy]
  | cons c cs ih =>
      show utf8DecodeLossy ((utf8EncodeChar c :: cs.map utf8EncodeChar).flatten) = c :: cs
      rw [List.flatten_cons, utf8DecodeLossy_encodeChar]
      exact congrArg (c :: ·) ih

/-! ## `Number.parseInt(s, 16)` (ECMAScript), restricted to its use on
two-character escape bodies in `decodeValue` -/

/-- ECMAScript StrWhiteSpaceChar (whitespace skipped by `parseInt`). -/
def isJsWhitespaceChar (c : Char) : Bool :=
  c.toNat ∈ [9, 10, 11, 12, 13, 32, 0xA0, 0x1680, 0x2000, 0x2001, 0x2002, 0x2003,
    0x2004, 0x2005, 0x2006, 0x2007, 0x2008, 0x2009, 0x200A, 0x2028, 0x2029,
    0x202F, 0x205F, 0x3000, 0xFEFF]

/-- The `Number.parseInt(s, 16)`: skip leading whitespace, optional sign,
optional `0x`/`0X`, then the longest run of hex digits; `none` models
`NaN` (no digits). -/
def jsParseIntHex (l : Str) : Option Int :=
  let l1 := l.dropWhile isJsWhitespaceChar
  let sgn : Int := if l1.head? = some '-' then -1 else 1
  let l2 := if l1.head? = some '-' ∨ l1.head? = some '+' then l1.tail else l1
  let l3 := if l2.take 2 = ['0', 'x'] ∨ l2.take 2 = ['0', 'X'] then l2.drop 2 else l2
  let ds := l3.takeWhile isHexDigitChar
  if ds.isEmpty then none
  else some (sgn * (ds.foldl (fun a c => a * 16 + hexVal c) 0 : Nat))

/-! ## FlatKV value-level percent-encoding
(`encodeValue` / `decodeValue` in src/gateway/FlatKV.ts) -/

/-- The `needsEncodingByte` from FlatKV.ts. -/
def needsEncodingByte (b : Nat) : Bool :=
  (b == 0x25) || (b == 0x1F) || (b == 0x1D) || (b == 0x1E) ||
    decide (b < 0x20) || decide (0x7E < b)

/-- The `encodeValue`: percent-escape the UTF-8 bytes of a value. -/
def encodeValue (value : Str) : Str :=
  ((utf8Encode value).map fun b =>
    if needsEncodingByte b then '%' :: hexByte b else [Char.ofNat b]).flatten

/-- The byte-collection loop of `decodeValue`.  On `'%'` the next two
characters are handed to `parseInt(h1 + h2, 16)`; a missing character or
a `NaN` result throws `Invalid percent-encoding`.  Other characters push
their code (`charCodeAt`). -/
def decodeValueBytes : Str → Except String (List Int)
  | [] => .ok []
  | '%' :: c1 :: c2 :: rest =>
    match jsParseIntHex [c1, c2] with
    | none => .error "Invalid percent-encoding"
    | some b => (decodeValueBytes rest).map (b :: ·)
  | '%' :: _ => .error "Invalid percent-encoding"
  | c :: rest => (decodeValueBytes rest).map ((c.toNat : Int) :: ·)

/-- The `decodeValue`: collect bytes, then `Buffer.from(bytes)` (which masks
each entry to `& 255`) and `toString('utf8')`. -/
def decodeValue (value : Str) : Except String Str :=
  (decodeValueBytes value).map fun bs =>
    utf8DecodeLossy (bs.map fun b => (b.emod 256).toNat)

/-! ### Value round-trip lemmas -/

theorem toNat_ofNat_valid {n : Nat} (h : n.isValidChar) : (Char.ofNat n).toNat = n := by
  rw [Char.ofNat, dif_pos h]
  simp only [Char.ofNatAux, Char.toNat, UInt32.toNat]
  simp

theorem toNat_ofNat_small {n : Nat} (h : n < 0xD800) : (Char.ofNat n).toNat = n :=
  toNat_ofNat_valid (Or.inl h)

theorem hexDigitVal?_hexDigitChar {m : Nat} (h : m < 16) :
    hexDigitVal? (hexDigitChar m) = some m := by
  unfold hexDigitChar hexDigitVal?
  by_cases h10 : m < 10
  · rw [if_pos h10, toNat_ofNat_small (by omega)]
    rw [if_pos (by omega)]
    congr 1
    omega
  · rw [if_neg h10, toNat_ofNat_small (by omega)]
    rw [if_neg (by omega), if_pos (by omega)]
    congr 1
    omega

theorem hexDigitChar_toNat_lt {m : Nat} (h : m < 16) : (hexDigitChar m).toNat ≤ 0x46 ∧
    0x30 ≤ (hexDigitChar m).toNat := by
  unfold hexDigitChar
  by_cases h10 : m < 10
  · rw [if_pos h10, toNat_ofNat_small (by omega)]
    omega
  · rw [if_neg h10, toNat_ofNat_small (by omega)]
    omega

theorem isJsWhitespaceChar_hexDigitChar {m : Nat} (h : m < 16) :
    isJsWhitespaceChar (hexDigitChar m) = false := by
  have := hexDigitChar_toNat_lt h
  simp only [isJsWhitespaceChar, List.mem_cons, List.not_mem_nil, or_false,
    decide_eq_false_iff_not]
  omega

theorem isHexDigitChar_hexDigitChar {m : Nat} (h : m < 16) :
    isHexDigitChar (hexDigitChar m) = true := by
  simp [isHexDigitChar, hexDigitVal?_hexDigitChar h]

theorem hexVal_hexDigitChar {m : Nat} (h : m < 16) : hexVal (hexDigitChar m) = m := by
  simp [hexVal, hexDigitVal?_hexDigitChar h]

theorem char_ne_of_toNat_ne {c d : Char} (h : c.toNat ≠ d.toNat) : c ≠ d := by
  intro he
  exact h (congrArg Char.toNat he)

/-- The `parseInt` recovers a byte from its uppercase two-digit hex form. -/
theorem jsParseIntHex_hexByte {b : Nat} (h : b < 256) :
    jsParseIntHex (hexByte b) = some (b : Int) := by
  have h1 : b / 16 < 16 := by omega
  have h2 : b % 16 < 16 := by omega
  have t1 := hexDigitChar_toNat_lt h1
  have t2 := hexDigitChar_toNat_lt h2
  have hminus : ('-' : Char).toNat = 45 := rfl
  have hplus : ('+' : Char).toNat = 43 := rfl
  have hx : ('x' : Char).toNat = 120 := rfl
  have hX : ('X' : Char).toNat = 88 := rfl
  have hd1 : ¬ (hexDigitChar (b / 16) = '-') := char_ne_of_toNat_ne (by omega)
  have hd1' : ¬ (hexDigitChar (b / 16) = '+') := char_ne_of_toNat_ne (by omega)
  have hd2x : ¬ (hexDigitChar (b % 16) = 'x') := char_ne_of_toNat_ne (by omega)
  have hd2X : ¬ (hexDigitChar (b % 16) = 'X') := char_ne_of_toNat_ne (by omega)
  have hdw : List.dropWhile isJsWhitespaceChar [hexDigitChar (b / 16), hexDigitChar (b % 16)]
      = [hexDigitChar (b / 16), hexDigitChar (b % 16)] := by
    rw [List.dropWhile_cons_of_neg (by simp [isJsWhitespaceChar_hexDigitChar h1])]
  have htw : List.takeWhile isHexDigitChar [hexDigitChar (b / 16), hexDigitChar (b % 16)]
      = [hexDigitChar (b / 16), hexDigitChar (b % 16)] := by
    rw [List.takeWhile_cons_of_pos (isHexDigitChar_hexDigitChar h1),
      List.takeWhile_cons_of_pos (isHexDigitChar_hexDigitChar h2), List.takeWhile_nil]
  simp only [jsParseIntHex, hexByte, hdw, List.head?_cons, Option.some.injEq, hd1, hd1',
    or_self, if_false, List.take_succ_cons, List.take_zero, List.cons.injEq, hd2x, hd2X,
    and_false, false_and, false_or, or_false, htw, List.isEmpty_cons, Bool.false_eq_true,
    if_true, List.foldl_cons, List.foldl_nil, hexVal_hexDigitChar h1,
    hexVal_hexDigitChar h2, one_mul]
  congr 1
  push_cast
  omega

theorem utf8EncodeChar_lt_256 (c : Char) : ∀ b ∈ utf8EncodeChar c, b < 256 := by
  have hv := char_valid_facts c
  intro b hb
  simp only [utf8EncodeChar] at hb
  split_ifs at hb <;>
    simp only [List.mem_cons, List.mem_singleton, List.not_mem_nil, or_false] at hb <;>
    rcases hb with hb | hb | hb | hb <;> omega

theorem utf8Encode_lt_256 (s : Str) : ∀ b ∈ utf8Encode s, b < 256 := by
  intro b hb
  simp only [utf8Encode, List.mem_flatten, List.mem_map] at hb
  obtain ⟨l, ⟨c, _, rfl⟩, hbl⟩ := hb
  exact utf8EncodeChar_lt_256 c b hbl

theorem decodeValueBytes_cons_other {c : Char} (hc : c ≠ '%') (rest : Str) :
    decodeValueBytes (c :: rest) = (decodeValueBytes rest).map ((c.toNat : Int) :: ·) := by
  cases rest with
  | nil => simp [decodeValueBytes, hc]
  | cons c1 r1 =>
    cases r1 with
    | nil => simp [decodeValueBytes, hc]
    | cons c2 r2 => simp [decodeValueBytes, hc]

theorem decodeValueBytes_escape_cons (c1 c2 : Char) (rest : Str) :
    decodeValueBytes ('%' :: c1 :: c2 :: rest)
      = match jsParseIntHex [c1, c2] with
        | none => .error "Invalid percent-encoding"
        | some b => (decodeValueBytes rest).map (b :: ·) := rfl

/-- The byte loop of `decodeValue` inverts the escaping of `encodeValue`,
byte by byte. -/
theorem decodeValueBytes_escaped (bs : List Nat) (h : ∀ b ∈ bs, b < 256) :
    decodeValueBytes ((bs.map fun b =>
        if needsEncodingByte b then '%' :: hexByte b else [Char.ofNat b]).flatten)
      = .ok (bs.map fun b => Int.ofNat b) := by
  induction bs with
  | nil => rfl
  | cons b rest ih =>
    have hb : b < 256 := h b (by simp)
    have ih' := ih fun x hx => h x (by simp [hx])
    simp only [List.map_cons, List.flatten_cons]
    by_cases hne : needsEncodingByte b
    · rw [if_pos hne]
      show decodeValueBytes ('%' :: hexDigitChar (b / 16) :: hexDigitChar (b % 16) :: _) = _
      rw [decodeValueBytes_escape_cons]
      have heq : [hexDigitChar (b / 16), hexDigitChar (b % 16)] = hexByte b := rfl
      rw [heq, jsParseIntHex_hexByte hb]
      simp only [List.append_eq, List.nil_append]
      rw [ih']
      rfl
    · rw [if_neg hne]
      have hble : b ≤ 0x7E := by
        simp only [needsEncodingByte, Bool.or_eq_true, beq_iff_eq, decide_eq_true_eq,
          not_or] at hne
        omega
      have hch : Char.ofNat b ≠ '%' := by
        intro he
        have := congrArg Char.toNat he
        rw [toNat_ofNat_small (by omega)] at this
        have h37 : ('%' : Char).toNat = 37 := rfl
        simp only [needsEncodingByte, Bool.or_eq_true, beq_iff_eq, decide_eq_true_eq,
          not_or] at hne
        omega
      show decodeValueBytes (Char.ofNat b :: _) = _
      rw [decodeValueBytes_cons_other hch]
      simp only [List.append_eq, List.nil_append]
      rw [ih']
      simp only [Except.map, List.map_cons]
      rw [toNat_ofNat_small (by omega)]
      rfl

/-- Value-level round trip: `decodeValue (encodeValue v) = v` for every
Unicode string `v`. -/
theorem decodeValue_encodeValue (v : Str) : decodeValue (encodeValue v) = .ok v := by
  unfold decodeValue encodeValue
  rw [decodeValueBytes_escaped _ (utf8Encode_lt_256 v)]
  simp only [Except.map, List.map_map]
  have hmask : ∀ b ∈ utf8Encode v,
      ((fun x => (x.emod 256).toNat) ∘ fun b : Nat => Int.ofNat b) b = id b := by
    intro b hb
    have hb' := utf8Encode_lt_256 v b hb
    simp only [Function.comp_apply, id_eq, Int.ofNat_eq_natCast]
    have he : (b : Int).emod 256 = (b : Int) % 256 := rfl
    rw [he]
    omega
  rw [List.map_congr_left hmask, List.map_id, utf8DecodeLossy_utf8Encode]

/-! ## `encodeURIComponent` / `decodeURIComponent` (ECMAScript), the
transport-level whole-frame escaping used by `FlatKV.encode`/`decode` -/

/-- Characters `encodeURIComponent` leaves unescaped:
alphanumerics and `- _ . ! ~ * ' ( )`. -/
def uriUnreservedChar (c : Char) : Bool :=
  decide (48 ≤ c.toNat ∧ c.toNat ≤ 57) || decide (65 ≤ c.toNat ∧ c.toNat ≤ 90) ||
  decide (97 ≤ c.toNat ∧ c.toNat ≤ 122) || (c == '-') || (c == '_') || (c == '.') ||
  (c == '!') || (c == '~') || (c == '*') || (c == Char.ofNat 39) || (c == '(') || (c == ')')

/-- The `encodeURIComponent` on a single character. -/
def encURIChar (c : Char) : Str :=
  if uriUnreservedChar c then [c]
  else ((utf8EncodeChar c).map fun b => '%' :: hexByte b).flatten

/-- The `encodeURIComponent`. -/
def encodeURIComponent (s : Str) : Str :=
  (s.map encURIChar).flatten

/-- Number of continuation bytes demanded by the ECMAScript Decode
algorithm for a leading byte `B ≥ 0x80` (`none`: URIError). -/
def uriContCount (b : Nat) : Option Nat :=
  if b < 0xC0 then none
  else if b < 0xE0 then some 1
  else if b < 0xF0 then some 2
  else if b < 0xF8 then some 3
  else none

/-- Collect `k` percent-escaped continuation bytes (`%XY` each). -/
def takeEscBytes : Nat → Str → Option (List Nat × Str)
  | 0, l => some ([], l)
  | k + 1, l =>
    match l with
    | c0 :: c1 :: c2 :: rest =>
      if c0 = '%' then
        match hexDigitVal? c1, hexDigitVal? c2 with
        | some h1, some h2 =>
          match takeEscBytes k rest with
          | some (bs, l') => some ((h1 * 16 + h2) :: bs, l')
          | none => none
        | _, _ => none
      else none
    | _ => none

theorem takeEscBytes_le : ∀ (k : Nat) (l : Str) (bs : List Nat) (l' : Str),
    takeEscBytes k l = some (bs, l') → l'.length ≤ l.length := by
  intro k
  induction k with
  | zero =>
    intro l bs l' h
    simp only [takeEscBytes, Option.some.injEq, Prod.mk.injEq] at h
    rw [← h.2]
  | succ k ih =>
    intro l bs l' h
    rcases l with _ | ⟨c0, _ | ⟨c1, _ | ⟨c2, rest⟩⟩⟩
    · simp only [takeEscBytes] at h
      exact Option.noConfusion h
    · simp only [takeEscBytes] at h
      exact Option.noConfusion h
    · simp only [takeEscBytes] at h
      exact Option.noConfusion h
    · simp only [takeEscBytes] at h
      split_ifs at h
      · cases hv1 : hexDigitVal? c1 with
        | none =>
          rw [hv1] at h
          exact Option.noConfusion h
        | some h1 =>
          rw [hv1] at h
          cases hv2 : hexDigitVal? c2 with
          | none =>
            rw [hv2] at h
            exact Option.noConfusion h
          | some h2 =>
            rw [hv2] at h
            cases hrec : takeEscBytes k rest with
            | none =>
              rw [hrec] at h
              exact Option.noConfusion h
            | some p =>
              rw [hrec] at h
              obtain ⟨bs', l''⟩ := p
              simp only [Option.some.injEq, Prod.mk.injEq] at h
              obtain ⟨h1e, h2e⟩ := h
              subst h2e
              have := ih rest bs' l'' hrec
              simp only [List.length_cons]
              omega

/-- The `decodeURIComponent` (ECMAScript Decode with an empty reserved set):
literal characters pass through; `%XY` escapes must be two hex digits;
a leading byte `≥ 0x80` must be followed by the right number of escaped
continuation bytes forming a valid UTF-8 sequence, else URIError. -/
def decURI : Str → Except String Str
  | [] => .ok []
  | c :: rest =>
    if c = '%' then
      match rest with
      | c1 :: c2 :: rest2 =>
        match hexDigitVal? c1, hexDigitVal? c2 with
        | some h1, some h2 =>
          if h1 * 16 + h2 < 0x80 then
            (decURI rest2).map (Char.ofNat (h1 * 16 + h2) :: ·)
          else
            match uriContCount (h1 * 16 + h2) with
            | none => .error "URI malformed"
            | some k =>
              match hesc : takeEscBytes k rest2 with
              | none => .error "URI malformed"
              | some (bsl, rest3) =>
                match utf8DecodeStep (h1 * 16 + h2) bsl with
                | (some ch, m) =>
                  if m = k + 1 then (decURI rest3).map (ch :: ·)
                  else .error "URI malformed"
                | (none, _) => .error "URI malformed"
        | _, _ => .error "URI malformed"
      | _ => .error "URI malformed"
    else
      (decURI rest).map (c :: ·)
termination_by l => l.length
decreasing_by
  · simp only [List.length_cons]; omega
  · have := takeEscBytes_le k rest2 bsl rest3 hesc
    simp only [List.length_cons]
    omega
  · simp only [List.length_cons]; omega

theorem takeEscBytes_escaped (bs : List Nat) (t : Str) (h : ∀ b ∈ bs, b < 256) :
    takeEscBytes bs.length ((bs.map fun b => '%' :: hexByte b).flatten ++ t)
      = some (bs, t) := by
  induction bs with
  | nil => rfl
  | cons b rest ih =>
    have hb : b < 256 := h b (by simp)
    have ih' := ih fun x hx => h x (by simp [hx])
    simp only [List.map_cons, List.flatten_cons, List.length_cons]
    show takeEscBytes (rest.length + 1)
      ('%' :: hexDigitChar (b / 16) :: hexDigitChar (b % 16) :: _) = _
    simp only [takeEscBytes, List.append_eq, List.nil_append, if_pos rfl,
      hexDigitVal?_hexDigitChar (show b / 16 < 16 by omega),
      hexDigitVal?_hexDigitChar (show b % 16 < 16 by omega), List.cons_append, ih']
    have hb' : b / 16 * 16 + b % 16 = b := by omega
    rw [hb']
    simp

theorem utf8EncodeChar_head_facts (c : Char) (h : 0x80 ≤ c.toNat) :
    ∀ b bs, utf8EncodeChar c = b :: bs →
      0x80 ≤ b ∧ b < 256 ∧ uriContCount b = some bs.length ∧ ∀ x ∈ bs, x < 256 := by
  intro b bs henc
  have hv := char_valid_facts c
  by_cases h2 : c.toNat < 0x800
  · unfold utf8EncodeChar at henc
    rw [if_neg (by omega), if_pos h2] at henc
    obtain ⟨hb, hbs⟩ : b = 0xC0 + c.toNat / 64 ∧ bs = [0x80 + c.toNat % 64] := by
      constructor <;> simp_all
    subst hb hbs
    refine ⟨by omega, by omega, ?_, ?_⟩
    · unfold uriContCount
      rw [if_neg (by omega), if_pos (by omega)]
      rfl
    · intro x hx
      simp only [List.mem_singleton] at hx
      omega
  · by_cases h3 : c.toNat < 0x10000
    · unfold utf8EncodeChar at henc
      rw [if_neg (by omega), if_neg h2, if_pos h3] at henc
      obtain ⟨hb, hbs⟩ : b = 0xE0 + c.toNat / 4096 ∧
          bs = [0x80 + c.toNat / 64 % 64, 0x80 + c.toNat % 64] := by
        constructor <;> simp_all
      subst hb hbs
      refine ⟨by omega, by omega, ?_, ?_⟩
      · unfold uriContCount
        rw [if_neg (by omega), if_neg (by omega), if_pos (by omega)]
        rfl
      · intro x hx
        simp only [List.mem_cons, List.not_mem_nil, or_false] at hx
        rcases hx with hx | hx <;> omega
    · unfold utf8EncodeChar at henc
      rw [if_neg (by omega), if_neg h2, if_neg h3] at henc
      obtain ⟨hb, hbs⟩ : b = 0xF0 + c.toNat / 262144 ∧
          bs = [0x80 + c.toNat / 4096 % 64, 0x80 + c.toNat / 64 % 64, 0x80 + c.toNat % 64] := by
        constructor <;> simp_all
      subst hb hbs
      refine ⟨by omega, by omega, ?_, ?_⟩
      · unfold uriContCount
        rw [if_neg (by omega), if_neg (by omega), if_neg (by omega), if_pos (by omega)]
        rfl
      · intro x hx
        simp only [List.mem_cons, List.not_mem_nil, or_false] at hx
        rcases hx with hx | hx | hx <;> omega

/-- The `decodeURIComponent` undoes `encodeURIComponent`, character by
character. -/
theorem decURI_encChar_append (c : Char) (t : Str) :
    decURI (encURIChar c ++ t) = (decURI t).map (c :: ·) := by
  by_cases hres : uriUnreservedChar c
  · have hc : c ≠ '%' := by
      intro he
      rw [he] at hres
      exact absurd hres (by decide)
    simp only [encURIChar, if_pos hres, List.cons_append, List.nil_append]
    rw [decURI.eq_def]
    simp only []
    rw [if_neg hc]
  · simp only [encURIChar, if_neg hres]
    by_cases h80 : c.toNat < 0x80
    · have henc : utf8EncodeChar c = [c.toNat] := by
        unfold utf8EncodeChar
        rw [if_pos h80]
      rw [henc]
      simp only [List.map_cons, List.map_nil, List.flatten_cons, List.flatten_nil,
        List.append_nil, hexByte, List.cons_append, List.nil_append]
      simp only [decURI,
        hexDigitVal?_hexDigitChar (show c.toNat / 16 < 16 by omega),
        hexDigitVal?_hexDigitChar (show c.toNat % 16 < 16 by omega),
        show c.toNat / 16 * 16 + c.toNat % 16 = c.toNat from by omega,
        Char.ofNat_toNat]
      rw [if_pos trivial, if_pos h80]
    · obtain ⟨b, bs, henc⟩ : ∃ b bs, utf8EncodeChar c = b :: bs := by
        cases h : utf8EncodeChar c with
        | nil => exact absurd h (utf8EncodeChar_ne_nil c)
        | cons x xs => exact ⟨x, xs, rfl⟩
      obtain ⟨hb80, hb256, hcont, hbs256⟩ := utf8EncodeChar_head_facts c (by omega) b bs henc
      have hstep := utf8DecodeStep_encodeChar c [] b bs henc
      rw [List.append_nil] at hstep
      rw [henc]
      simp only [List.map_cons, List.flatten_cons, List.cons_append, List.append_assoc]
      show decURI ('%' :: hexDigitChar (b / 16) :: hexDigitChar (b % 16) :: _) = _
      simp only [decURI, List.append_eq, List.nil_append,
        hexDigitVal?_hexDigitChar (show b / 16 < 16 by omega),
        hexDigitVal?_hexDigitChar (show b % 16 < 16 by omega),
        show b / 16 * 16 + b % 16 = b from by omega,
        if_neg (show ¬ b < 0x80 by omega), hcont]
      rw [if_pos trivial]
      split
      · rename_i heq
        rw [takeEscBytes_escaped bs t hbs256] at heq
        exact Option.noConfusion heq
      · rename_i heq
        rw [takeEscBytes_escaped bs t hbs256] at heq
        have h2 := Option.some.inj heq
        rw [Prod.mk.injEq] at h2
        obtain ⟨hbsl, hrest3⟩ := h2
        subst hbsl hrest3
        rw [hstep]
        simp

/-- The `decodeURIComponent (encodeURIComponent s) = s` for every Unicode
string `s`. -/
theorem decURI_encodeURIComponent (s : Str) : decURI (encodeURIComponent s) = .ok s := by
  induction s with
  | nil => simp [encodeURIComponent, decURI]
  | cons c cs ih =>
    show decURI ((encURIChar c :: cs.map encURIChar).flatten) = _
    rw [List.flatten_cons, decURI_encChar_append,
      show (cs.map encURIChar).flatten = encodeURIComponent cs from rfl, ih]
    rfl

/-! ## FlatKV records and the frame-level codec (src/gateway/FlatKV.ts) -/

/-- JS `Record<string, string>`: an insertion-ordered mapping, modelled
as an association list whose key uniqueness is maintained by
`recordSet`. -/
abbrev FlatRecord := List (Str × Str)

/-- JS property write `record[k] = v`: update in place if present,
append otherwise. -/
def recordSet (r : FlatRecord) (k v : Str) : FlatRecord :=
  if r.any fun p => decide (p.1 = k) then
    r.map fun p => if p.1 = k then (k, v) else p
  else r ++ [(k, v)]

/-- JS property read `record[k]`. -/
def lookupRec (r : FlatRecord) (k : Str) : Option Str :=
  match r with
  | [] => none
  | p :: rest => if p.1 = k then some p.2 else lookupRec rest k

/-- US (0x1F), the pair separator. -/
def usChar : Char := Char.ofNat 0x1F

/-- GS (0x1D), the key/value separator. -/
def gsChar : Char := Char.ofNat 0x1D

namespace FlatKV

/-- The `FlatKV.encode`: for each entry emit `key GS encodeValue(value)`,
join the pairs with US, then URL-encode the whole frame
(`encodeURIComponent`). -/
def encode (record : FlatRecord) : Str :=
  encodeURIComponent
    (List.intercalate [usChar] (record.map fun p => p.1 ++ gsChar :: encodeValue p.2))

/-- The pair loop of `FlatKV.decode`: empty pairs and pairs whose first
GS is absent or at position 0 are skipped (`idx <= 0`); otherwise the
value is percent-decoded and the key assigned. -/
def decodePairs : FlatRecord → List Str → Except String FlatRecord
  | acc, [] => .ok acc
  | acc, pair :: rest =>
    if pair.isEmpty then decodePairs acc rest
    else
      match pair.findIdx? fun ch => decide (ch = gsChar) with
      | none => decodePairs acc rest
      | some idx =>
        if idx = 0 then decodePairs acc rest
        else
          match decodeValue (pair.drop (idx + 1)) with
          | .error e => .error e
          | .ok v => decodePairs (recordSet acc (pair.take idx) v) rest

/-- The `FlatKV.decode`: empty text gives the empty record; otherwise
URL-decode the whole frame, split on US and process each pair. -/
def decode (text : Str) : Except String FlatRecord :=
  if text.isEmpty then .ok []
  else
    match decURI text with
    | .error e => .error e
    | .ok raw => decodePairs [] (raw.splitOn usChar)

end FlatKV

/-- The `encodeArray`: `[v0;v1;...;vn]`; inputs are given by their
`String(v)` form. -/
def encodeArray (values : List Str) : Str :=
  '[' :: List.intercalate [';'] values ++ [']']

/-- The `decodeArray`: requires leading `[` and trailing `]`, returns `[]`
for an empty interior, else splits the interior on `;`. -/
def decodeArray (text : Str) : Except String (List Str) :=
  if text.head? = some '[' ∧ text.getLast? = some ']' then
    let inner := (text.drop 1).dropLast
    if inner.isEmpty then .ok []
    else .ok (inner.splitOn ';')
  else .error "invalid ArrayValue: missing brackets"

/-! ## Envelope parsing and building (src/gateway/FlatKV.ts) -/

/-- The reserved envelope keys. -/
def reservedKeys : List Str :=
  ["type".toList, "id".toList, "status".toList, "message".toList, "method".toList]

/-- JS `String.prototype.startsWith`. -/
def strStarts : Str → Str → Bool
  | [], _ => true
  | _ :: _, [] => false
  | p :: ps, c :: cs => decide (p = c) && strStarts ps cs

/-- The `RpcRequest`. -/
structure RpcRequest where
  id : Str
  method : Str
  args : FlatRecord
deriving DecidableEq

/-- The `RpcResponseOk | RpcResponseError`. -/
inductive RpcResponse where
  | ok (id : Str) (result : FlatRecord)
  | err (id : Str) (message : Str)
deriving DecidableEq

/-- The `parseResponse`. -/
def parseResponse (record : FlatRecord) : Except String RpcResponse :=
  let type := lookupRec record "type".toList
  let id := (lookupRec record "id".toList).getD []
  let status := lookupRec record "status".toList
  if type ≠ some "response".toList then .error "not a response"
  else if id.isEmpty ∨ 64 < id.length then .error "invalid id"
  else if status = some "ok".toList then
    let base := record.foldl (fun acc p =>
      if p.1 ∈ reservedKeys then acc
      else if strStarts "result.".toList p.1 then acc
      else recordSet acc p.1 p.2) []
    let result := record.foldl (fun acc p =>
      if strStarts "result.".toList p.1 then
        let kk := p.1.drop "result.".toList.length
        if (lookupRec acc kk).isSome then acc else recordSet acc kk p.2
      else acc) base
    .ok (.ok id result)
  else if status = some "error".toList then
    .ok (.err id ((lookupRec record "message".toList).getD "error".toList))
  else .error "invalid response"

/-- The `parseRequest`. -/
def parseRequest (record : FlatRecord) : Except String RpcRequest :=
  let type := lookupRec record "type".toList
  let id := (lookupRec record "id".toList).getD []
  let method := (lookupRec record "method".toList).getD []
  if type ≠ some "request".toList then .error "not a request"
  else if id.isEmpty ∨ 64 < id.length then .error "invalid id"
  else if method.isEmpty then .error "missing method"
  else
    let args := record.foldl (fun acc p =>
      if p.1 ∈ reservedKeys then acc
      else if strStarts "result.".toList p.1 then acc
      else if strStarts "argument.".toList p.1 then acc
      else recordSet acc p.1 p.2) []
    let args2 := record.foldl (fun acc p =>
      if strStarts "argument.".toList p.1 then
        let kk := p.1.drop "argument.".toList.length
        if (lookupRec acc kk).isSome then acc else recordSet acc kk p.2
      else acc) args
    .ok ⟨id, method, args2⟩

/-- The `buildResponseOk` constructor: start from the envelope literal
with type response, the given id and status ok, then assign every
result entry on top (unguarded). -/
def buildResponseOk (id : Str) (result : FlatRecord) : FlatRecord :=
  result.foldl (fun out p => recordSet out p.1 p.2)
    [("type".toList, "response".toList), ("id".toList, id),
     ("status".toList, "ok".toList)]

/-- The `buildResponseError`. -/
def buildResponseError (id : Str) (message : Str) : FlatRecord :=
  [("type".toList, "response".toList), ("id".toList, id),
   ("status".toList, "error".toList), ("message".toList, message)]

/-! ## Frame round trip -/

/-- The legal key alphabet `[A-Za-z0-9._-]`. -/
def keyAlphabetChar (c : Char) : Bool :=
  decide (65 ≤ c.toNat ∧ c.toNat ≤ 90) || decide (97 ≤ c.toNat ∧ c.toNat ≤ 122) ||
  decide (48 ≤ c.toNat ∧ c.toNat ≤ 57) || (c == '.') || (c == '_') || (c == '-')

/-- A well-formed key: nonempty, drawn from `[A-Za-z0-9._-]`. -/
def wfKey (k : Str) : Prop := k ≠ [] ∧ ∀ c ∈ k, keyAlphabetChar c = true

instance (k : Str) : Decidable (wfKey k) :=
  decidable_of_iff (k ≠ [] ∧ ∀ c ∈ k, keyAlphabetChar c = true) Iff.rfl

/-- A well-formed frame: well-formed keys, no duplicates. -/
def wfFrame (r : FlatRecord) : Prop :=
  (∀ p ∈ r, wfKey p.1) ∧ (r.map Prod.fst).Nodup

instance (r : FlatRecord) : Decidable (wfFrame r) :=
  decidable_of_iff ((∀ p ∈ r, wfKey p.1) ∧ (r.map Prod.fst).Nodup) Iff.rfl

theorem keyAlphabetChar_toNat_ge {c : Char} (h : keyAlphabetChar c = true) :
    45 ≤ c.toNat ∧ c.toNat ≤ 122 := by
  have h45 : ('-' : Char).toNat = 45 := rfl
  have h46 : ('.' : Char).toNat = 46 := rfl
  have h95 : ('_' : Char).toNat = 95 := rfl
  simp only [keyAlphabetChar, Bool.or_eq_true, beq_iff_eq, decide_eq_true_eq] at h
  rcases h with ((((h | h) | h) | h) | h) | h <;> try omega
  all_goals subst h <;> omega

theorem encodeValue_char_range (v : Str) :
    ∀ ch ∈ encodeValue v, 0x20 ≤ ch.toNat ∧ ch.toNat ≤ 0x7E := by
  intro ch hch
  simp only [encodeValue, List.mem_flatten, List.mem_map] at hch
  obtain ⟨l, ⟨b, hb, rfl⟩, hchl⟩ := hch
  have hb256 := utf8Encode_lt_256 v b hb
  by_cases hne : needsEncodingByte b
  · rw [if_pos hne] at hchl
    have h37 : ('%' : Char).toNat = 37 := rfl
    rcases List.mem_cons.mp hchl with rfl | hchl
    · omega
    · simp only [hexByte, List.mem_cons, List.not_mem_nil, or_false] at hchl
      have t1 := hexDigitChar_toNat_lt (show b / 16 < 16 by omega)
      have t2 := hexDigitChar_toNat_lt (show b % 16 < 16 by omega)
      rcases hchl with rfl | rfl <;> omega
  · rw [if_neg hne] at hchl
    simp only [List.mem_singleton] at hchl
    subst hchl
    simp only [needsEncodingByte, Bool.or_eq_true, beq_iff_eq, decide_eq_true_eq,
      not_or] at hne
    rw [toNat_ofNat_small (by omega)]
    omega

theorem usChar_not_mem_pair {k v : Str} (hk : ∀ c ∈ k, keyAlphabetChar c = true) :
    usChar ∉ k ++ gsChar :: encodeValue v := by
  have hus : usChar.toNat = 0x1F := rfl
  have hgs : gsChar.toNat = 0x1D := rfl
  intro hmem
  rcases List.mem_append.mp hmem with hmem | hmem
  · have := keyAlphabetChar_toNat_ge (hk _ hmem)
    omega
  · rcases List.mem_cons.mp hmem with heq | hmem
    · have := congrArg Char.toNat heq
      omega
    · have := encodeValue_char_range v usChar hmem
      omega

theorem gsChar_not_mem_key {k : Str} (hk : ∀ c ∈ k, keyAlphabetChar c = true) :
    gsChar ∉ k := by
  have hgs : gsChar.toNat = 0x1D := rfl
  intro hmem
  have := keyAlphabetChar_toNat_ge (hk _ hmem)
  omega

theorem findIdx?_key_gs {k : Str} (w : Str) (hk : gsChar ∉ k) :
    (k ++ gsChar :: w).findIdx? (fun ch => decide (ch = gsChar)) = some k.length := by
  induction k with
  | nil => simp
  | cons c k' ih =>
    have hc : c ≠ gsChar := fun he => hk (he ▸ List.mem_cons_self c k')
    have ih' := ih fun hm => hk (List.mem_cons_of_mem c hm)
    simp only [List.cons_append, List.findIdx?_cons, decide_eq_true_eq, hc, if_false,
      List.findIdx?_start_succ, ih', Option.map_some, List.length_cons]
    simp [Nat.add_comm]

theorem recordSet_fresh {acc : FlatRecord} {k : Str} (v : Str)
    (h : ∀ q ∈ acc, q.1 ≠ k) : recordSet acc k v = acc ++ [(k, v)] := by
  unfold recordSet
  rw [if_neg]
  simp only [List.any_eq_true, decide_eq_true_eq, not_exists, not_and]
  exact fun q hq => h q hq

/-- The decode pair loop inverts the encode pair construction. -/
theorem decodePairs_encoded : ∀ (r acc : FlatRecord),
    (∀ p ∈ r, wfKey p.1) → ((r.map Prod.fst).Nodup) →
    (∀ p ∈ r, ∀ q ∈ acc, q.1 ≠ p.1) →
    FlatKV.decodePairs acc (r.map fun p => p.1 ++ gsChar :: encodeValue p.2)
      = .ok (acc ++ r) := by
  intro r
  induction r with
  | nil =>
    intro acc _ _ _
    simp [FlatKV.decodePairs]
  | cons p rest ih =>
    intro acc hwf hnd hdisj
    obtain ⟨k, v⟩ := p
    have hkwf : wfKey k := hwf (k, v) (by simp)
    obtain ⟨hkne, hkalpha⟩ := hkwf
    have hlen0 : k.length ≠ 0 := fun h => hkne (List.length_eq_zero.mp h)
    have hdrop : (k ++ gsChar :: encodeValue v).drop (k.length + 1) = encodeValue v := by
      rw [show k ++ gsChar :: encodeValue v = (k ++ [gsChar]) ++ encodeValue v by simp,
        List.drop_left' (by simp)]
    have htake : (k ++ gsChar :: encodeValue v).take k.length = k := List.take_left k _
    have hempty : (k ++ gsChar :: encodeValue v).isEmpty = false := by
      cases k with
      | nil => exact absurd rfl hkne
      | cons c k' => simp
    simp only [List.map_cons, FlatKV.decodePairs, hempty, Bool.false_eq_true, if_false,
      findIdx?_key_gs _ (gsChar_not_mem_key hkalpha), if_neg hlen0, hdrop, htake,
      decodeValue_encodeValue]
    rw [recordSet_fresh v (fun q hq => hdisj (k, v) (by simp) q hq)]
    have hnd' : (rest.map Prod.fst).Nodup := (List.nodup_cons.mp hnd).2
    have hknotin : k ∉ rest.map Prod.fst := (List.nodup_cons.mp hnd).1
    have hdisj' : ∀ p ∈ rest, ∀ q ∈ acc ++ [(k, v)], q.1 ≠ p.1 := by
      intro p hp q hq
      rcases List.mem_append.mp hq with hq | hq
      · exact hdisj p (by simp [hp]) q hq
      · simp only [List.mem_singleton] at hq
        subst hq
        intro he
        apply hknotin
        have he' : k = p.1 := he
        rw [he']
        exact List.mem_map_of_mem Prod.fst hp
    rw [ih (acc ++ [(k, v)]) (fun p hp => hwf p (by simp [hp])) hnd' hdisj']
    simp

theorem encURIChar_ne_nil (c : Char) : encURIChar c ≠ [] := by
  unfold encURIChar
  split_ifs
  · simp
  · obtain ⟨b, bs, henc⟩ : ∃ b bs, utf8EncodeChar c = b :: bs := by
      cases h : utf8EncodeChar c with
      | nil => exact absurd h (utf8EncodeChar_ne_nil c)
      | cons x xs => exact ⟨x, xs, rfl⟩
    rw [henc]
    simp

/-- Frame-level round trip under the key precondition: decoding the
encoded frame returns the original record. -/
theorem flatkv_decode_encode (r : FlatRecord) (h : wfFrame r) :
    FlatKV.decode (FlatKV.encode r) = .ok r := by
  obtain ⟨hwf, hnd⟩ := h
  rcases hr : r with _ | ⟨⟨k, v⟩, rest⟩
  · rfl
  · rw [← hr]
    have hrne : r ≠ [] := by rw [hr]; simp
    unfold FlatKV.encode FlatKV.decode
    have hpairs_ne : (r.map fun p => p.1 ++ gsChar :: encodeValue p.2) ≠ [] := by
      rw [hr]; simp
    have hraw_ne : List.intercalate [usChar]
        (r.map fun p => p.1 ++ gsChar :: encodeValue p.2) ≠ [] := by
      rw [hr]
      simp only [List.map_cons, List.intercalate]
      have hk : k ≠ [] := (hwf (k, v) (by rw [hr]; simp)).1
      cases rest with
      | nil =>
        cases k with
        | nil => exact absurd rfl hk
        | cons c k' => simp
      | cons q rest' =>
        cases k with
        | nil => exact absurd rfl hk
        | cons c k' => simp
    have htext_ne : encodeURIComponent (List.intercalate [usChar]
        (r.map fun p => p.1 ++ gsChar :: encodeValue p.2)) ≠ [] := by
      cases hl : List.intercalate [usChar]
          (r.map fun p => p.1 ++ gsChar :: encodeValue p.2) with
      | nil => exact absurd hl hraw_ne
      | cons c rest' =>
        show encodeURIComponent (c :: rest') ≠ []
        simp only [encodeURIComponent, List.map_cons, List.flatten_cons]
        intro happ
        exact encURIChar_ne_nil c (List.append_eq_nil.mp happ).1
    rw [if_neg (by simpa using htext_ne)]
    simp only [decURI_encodeURIComponent]
    rw [List.splitOn_intercalate _ usChar
      (by
        intro l hl
        simp only [List.mem_map] at hl
        obtain ⟨p, hp, rfl⟩ := hl
        exact usChar_not_mem_pair fun c hc => (hwf p hp).2 c hc)
      hpairs_ne]
    rw [decodePairs_encoded r [] hwf hnd (by simp)]
    simp

/-! ## WebSocket RPC coordinator (src/gateway/WebSocketRpc.ts)

The coordinator is modelled as explicit state passing.  A `CoordState`
holds the connected-client set and the pending-call table (`Map` keyed
by correlation id; JS `Map` iteration/insertion order is modelled by an
association list with `mapSet`/`mapGet`/`mapDelete`).  Each entrypoint
returns the new state together with the list of externally observable
`Event`s it performs, in order: promise resolutions and rejections,
frames sent, sockets terminated.  Logging has no protocol effect and is
not modelled. -/

/-- A pending-call table entry: the caller's continuation pair is
identified by `callToken`; `timerArmed` records the armed timeout. -/
structure PendingEntry where
  callToken : Nat
  timerArmed : Bool
deriving DecidableEq

/-- Coordinator state: `clients`, `pending`, and whether the underlying
server was closed. -/
structure CoordState where
  clients : List Nat
  pending : List (Str × PendingEntry)
  wssClosed : Bool
deriving DecidableEq

/-- Externally observable actions. -/
inductive Event where
  | terminate (client : Nat)
  | wssClose
  | rejectCall (id : Str) (message : String)
  | resolveCall (id : Str) (result : FlatRecord) (raw : Str)
  | rejectCallRpc (id : Str) (message : Str) (raw : Str)
  | send (frame : Str)
deriving DecidableEq

/-- The `Map.prototype.get`. -/
def mapGet : List (Str × PendingEntry) → Str → Option PendingEntry
  | [], _ => none
  | p :: rest, k => if p.1 = k then some p.2 else mapGet rest k

/-- The `Map.prototype.set`: update in place, else append. -/
def mapSet (m : List (Str × PendingEntry)) (k : Str) (e : PendingEntry) :
    List (Str × PendingEntry) :=
  if m.any fun p => decide (p.1 = k) then
    m.map fun p => if p.1 = k then (k, e) else p
  else m ++ [(k, e)]

/-- The `Map.prototype.delete`. -/
def mapDelete (m : List (Str × PendingEntry)) (k : Str) : List (Str × PendingEntry) :=
  m.filter fun p => !(decide (p.1 = k))

/-- A registered handler: a pure model of a possibly-throwing
(sync or async) handler — `.error msg` models a throw/rejection whose
error carries `msg`. -/
abbrev RpcHandler := FlatRecord → Except Str FlatRecord

namespace WebSocketRpcServer

/-- The `close()`: terminate every client and clear the set; for every
pending entry clear its timer, reject its promise with
`Error('server closed')` and delete it; finally close the server.
Total by construction — the source wraps each step in `try`/`catch`. -/
def close (s : CoordState) : CoordState × List Event :=
  ({ clients := [], pending := [], wssClosed := true },
   s.clients.map .terminate
     ++ s.pending.map (fun p => .rejectCall p.1 "server closed")
     ++ [.wssClose])

/-- The `type === 'response'` branch of the message handler: parse the
response (an unparseable one is logged and ignored); look up the pending
entry by correlation id — a missing entry means the frame is dropped;
otherwise remove the entry, clear its timer and settle its promise. -/
def handleResponse (s : CoordState) (record : FlatRecord) (raw : Str) :
    CoordState × List Event :=
  match parseResponse record with
  | .error _ => (s, [])
  | .ok (.ok rid result) =>
    match mapGet s.pending rid with
    | none => (s, [])
    | some _ =>
      ({ s with pending := mapDelete s.pending rid }, [.resolveCall rid result raw])
  | .ok (.err rid msg) =>
    match mapGet s.pending rid with
    | none => (s, [])
    | some _ =>
      ({ s with pending := mapDelete s.pending rid }, [.rejectCallRpc rid msg raw])

/-- The `Map.prototype.get` on the handler table. -/
def lookupHandler : List (Str × RpcHandler) → Str → Option RpcHandler
  | [], _ => none
  | p :: rest, k => if p.1 = k then some p.2 else lookupHandler rest k

/-- The inbound message entrypoint (the `ws.on('message', ...)` handler,
after the raw data has been coerced to text).  Every failure path is
caught and answered with an error response frame; the entrypoint itself
is a total function. -/
def onMessage (handlers : List (Str × RpcHandler)) (s : CoordState) (text : Str) :
    CoordState × List Event :=
  match FlatKV.decode text with
  | .error e =>
    (s, [.send (FlatKV.encode
      [("type".toList, "response".toList), ("id".toList, []),
       ("status".toList, "error".toList), ("message".toList, e.toList)])])
  | .ok record =>
    if lookupRec record "type".toList = some "response".toList then
      handleResponse s record text
    else
      match parseRequest record with
      | .error e =>
        (s, [.send (FlatKV.encode
          [("type".toList, "response".toList),
           ("id".toList, (lookupRec record "id".toList).getD []),
           ("status".toList, "error".toList), ("message".toList, e.toList)])])
      | .ok req =>
        match lookupHandler handlers req.method with
        | none =>
          (s, [.send (FlatKV.encode
            (buildResponseError req.id "method not implemented".toList))])
        | some h =>
          match h req.args with
          | .ok result =>
            (s, [.send (FlatKV.encode (buildResponseOk req.id result))])
          | .error msg =>
            (s, [.send (FlatKV.encode (buildResponseError req.id msg))])

/-- The registration step of `requestWithRaw` after a connection is
available: the correlation id `newId` is the value of
`Math.random().toString(36).slice(2, 10)` (randomness is an input of
the model), `tok` identifies the new promise's continuations.  The
request frame is built from the envelope literal plus the arguments,
the entry is stored with `pending.set(id, ...)` (an armed timer), and
the frame is sent. -/
def requestRegister (s : CoordState) (newId method : Str) (args : FlatRecord)
    (tok : Nat) : CoordState × List Event :=
  let frame := args.foldl (fun acc p => recordSet acc p.1 p.2)
    [("type".toList, "request".toList), ("id".toList, newId),
     ("method".toList, method)]
  ({ s with pending := mapSet s.pending newId ⟨tok, true⟩ },
   [.send (FlatKV.encode frame)])

end WebSocketRpcServer

/-! ## Supporting lemmas for the claim theorems -/

/-- Correlation id carried by a parsed response. -/
def RpcResponse.rid : RpcResponse → Str
  | .ok i _ => i
  | .err i _ => i

theorem parseResponse_rid {record : FlatRecord} {res : RpcResponse}
    (h : parseResponse record = .ok res) :
    res.rid = (lookupRec record "id".toList).getD [] := by
  simp only [parseResponse] at h
  split_ifs at h <;>
    first
      | exact Except.noConfusion h
      | (injection h with h; subst h; rfl)

theorem parseRequest_type {record : FlatRecord} {req : RpcRequest}
    (h : parseRequest record = .ok req) :
    lookupRec record "type".toList = some "request".toList := by
  simp only [parseRequest] at h
  split_ifs at h with h1 h2 h3 <;>
    first
      | exact Except.noConfusion h
      | exact not_not.mp h1

theorem mapGet_eq_none {m : List (Str × PendingEntry)} {k : Str}
    (h : k ∉ m.map Prod.fst) : mapGet m k = none := by
  induction m with
  | nil => rfl
  | cons p rest ih =>
    simp only [List.map_cons, List.mem_cons, not_or] at h
    simp only [mapGet]
    rw [if_neg fun he => h.1 he.symm, ih h.2]

theorem mapSet_fresh {m : List (Str × PendingEntry)} {k : Str} (e : PendingEntry)
    (h : k ∉ m.map Prod.fst) : mapSet m k e = m ++ [(k, e)] := by
  unfold mapSet
  rw [if_neg]
  simp only [List.any_eq_true, decide_eq_true_eq, not_exists, not_and]
  intro q hq he
  exact h (he ▸ List.mem_map_of_mem Prod.fst hq)

/-- Recognize promise rejections among events. -/
def Event.isReject : Event → Bool
  | .rejectCall _ _ => true
  | _ => false

/-! ## Claim theorems -/

/-- C1: Frame round trip.  For every frame whose keys are nonempty
strings over `[A-Za-z0-9._-]` without duplicates and whose values are
arbitrary Unicode strings (separator control characters and `%`
included), `FlatKV.decode (FlatKV.encode f) = f`. -/
theorem C1_frame_roundtrip (r : FlatRecord) (h : wfFrame r) :
    FlatKV.decode (FlatKV.encode r) = .ok r :=
  flatkv_decode_encode r h

/-- C2: `close()` rejects every one of the `N` pending futures with a
`'server closed'` error (one rejection per entry, in table order),
leaves the pending table empty, and — being a total function that wraps
each step of the source in try/catch — a second `close()` does not
throw and performs no further rejection of the already-settled
futures. -/
theorem C2_close_drains (s : CoordState) :
    (WebSocketRpcServer.close s).2.filter Event.isReject
        = s.pending.map (fun p => Event.rejectCall p.1 "server closed") ∧
    (WebSocketRpcServer.close s).1.pending = [] ∧
    (WebSocketRpcServer.close (WebSocketRpcServer.close s).1).2.filter
        Event.isReject = [] := by
  refine ⟨?_, rfl, rfl⟩
  have hterm : ∀ l : List Nat, (l.map Event.terminate).filter Event.isReject = [] := by
    intro l
    induction l with
    | nil => rfl
    | cons c cs ih =>
      simp only [List.map_cons, List.filter_cons]
      rw [if_neg (show ¬ Event.isReject (Event.terminate c) = true from by
        intro hc
        exact Bool.noConfusion hc)]
      exact ih
  have hrej : ∀ l : List (Str × PendingEntry),
      (l.map fun p => Event.rejectCall p.1 "server closed").filter Event.isReject
        = l.map fun p => Event.rejectCall p.1 "server closed" := by
    intro l
    induction l with
    | nil => rfl
    | cons c cs ih =>
      simp only [List.map_cons, List.filter_cons]
      rw [if_pos (show Event.isReject (Event.rejectCall c.1 "server closed") = true
        from rfl)]
      rw [ih]
  simp only [WebSocketRpcServer.close, List.filter_append, hterm, hrej]
  simp [Event.isReject]

/-- C4: a response frame whose id is not in the pending table (whether
it parses or not) has no effect: the state — including every pending
entry and its armed timer — is unchanged and no promise is resolved or
rejected, so every previously registered call remains subject to its
own timeout. -/
theorem C4_wrong_id_no_effect (s : CoordState) (record : FlatRecord) (raw : Str)
    (h : (lookupRec record "id".toList).getD [] ∉ s.pending.map Prod.fst) :
    WebSocketRpcServer.handleResponse s record raw = (s, []) := by
  unfold WebSocketRpcServer.handleResponse
  cases hp : parseResponse record with
  | error e => rfl
  | ok res =>
    have hrid := parseResponse_rid hp
    cases res with
    | ok rid result =>
      have hr : rid = (lookupRec record "id".toList).getD [] := hrid
      have hnone : mapGet s.pending rid = none := mapGet_eq_none (by rw [hr]; exact h)
      simp [hnone]
    | err rid msg =>
      have hr : rid = (lookupRec record "id".toList).getD [] := hrid
      have hnone : mapGet s.pending rid = none := mapGet_eq_none (by rw [hr]; exact h)
      simp [hnone]

/-- C4 witness: a pending call `abc` and a response for foreign id
`zzz`. -/
theorem C4_wrong_id_no_effect_witness :
    ((lookupRec [("type".toList, "response".toList), ("id".toList, "zzz".toList),
        ("status".toList, "ok".toList)] "id".toList).getD []
      ∉ ([("abc".toList, (⟨0, true⟩ : PendingEntry))].map Prod.fst)) ∧
    WebSocketRpcServer.handleResponse ⟨[0], [("abc".toList, ⟨0, true⟩)], false⟩
        [("type".toList, "response".toList), ("id".toList, "zzz".toList),
          ("status".toList, "ok".toList)] []
      = (⟨[0], [("abc".toList, ⟨0, true⟩)], false⟩, []) :=
  ⟨by decide,
    C4_wrong_id_no_effect ⟨[0], [("abc".toList, ⟨0, true⟩)], false⟩
      [("type".toList, "response".toList), ("id".toList, "zzz".toList),
        ("status".toList, "ok".toList)] [] (by decide)⟩

/-- C8 counterexample: the correlation id is drawn from `Math.random`
with no check against the pending table; a drawn token equal to a
pending id (`abc` here) is not distinct from the pending ids, and
registration silently replaces the existing entry. -/
theorem C8_counterexample :
    "abc".toList ∈ ([("abc".toList, (⟨1, true⟩ : PendingEntry))].map Prod.fst) ∧
    (WebSocketRpcServer.requestRegister ⟨[0], [("abc".toList, ⟨1, true⟩)], false⟩
        "abc".toList "m".toList [] 2).1.pending
      = [("abc".toList, ⟨2, true⟩)] := by
  constructor
  · decide
  · decide

/-- C8 (amended): the allocator guarantees no table-wide uniqueness; a
fresh id is obtained exactly when the drawn token is not already
pending, in which case the new entry is appended and every prior entry
is untouched. -/
theorem C8_register_fresh (s : CoordState) (newId method : Str) (args : FlatRecord)
    (tok : Nat) (h : newId ∉ s.pending.map Prod.fst) :
    (WebSocketRpcServer.requestRegister s newId method args tok).1.pending
      = s.pending ++ [(newId, ⟨tok, true⟩)] := by
  unfold WebSocketRpcServer.requestRegister
  exact mapSet_fresh _ h

/-- C8 witness. -/
theorem C8_register_fresh_witness :
    ("xyz".toList ∉ ([("abc".toList, (⟨1, true⟩ : PendingEntry))].map Prod.fst)) ∧
    (WebSocketRpcServer.requestRegister ⟨[0], [("abc".toList, ⟨1, true⟩)], false⟩
        "xyz".toList "m".toList [] 2).1.pending
      = [("abc".toList, ⟨1, true⟩), ("xyz".toList, ⟨2, true⟩)] :=
  ⟨by decide,
    C8_register_fresh ⟨[0], [("abc".toList, ⟨1, true⟩)], false⟩ "xyz".toList
      "m".toList [] 2 (by decide)⟩

/-- C9: `buildResponseOk` writes result entries over the envelope
unguarded: with result `{status: 'error'}` the produced frame's
`status` is `'error'`, not `'ok'` — no longer a well-formed
ok-response. -/
theorem C9_buildResponseOk_unguarded :
    lookupRec (buildResponseOk "1".toList [("status".toList, "error".toList)])
        "status".toList = some "error".toList ∧
    ("error".toList : Str) ≠ "ok".toList := by
  constructor
  · decide
  · decide

/-- C3: if an inbound frame decodes and parses to a request whose
registered handler throws (models a sync throw or an async rejection),
the entrypoint — a total function, so it never throws — produces
exactly one outgoing frame, the error response built from the thrown
message, and leaves the coordinator state (in particular every pending
call) untouched. -/
theorem C3_handler_isolation (handlers : List (Str × RpcHandler)) (s : CoordState)
    (text : Str) (record : FlatRecord) (req : RpcRequest) (h : RpcHandler) (msg : Str)
    (hdec : FlatKV.decode text = .ok record)
    (hreq : parseRequest record = .ok req)
    (hh : WebSocketRpcServer.lookupHandler handlers req.method = some h)
    (hthrow : h req.args = .error msg) :
    WebSocketRpcServer.onMessage handlers s text
      = (s, [.send (FlatKV.encode (buildResponseError req.id msg))]) := by
  have htype := parseRequest_type hreq
  unfold WebSocketRpcServer.onMessage
  simp only [hdec]
  rw [if_neg (by
    rw [htype]
    intro hc
    have := Option.some.inj hc
    exact absurd (congrArg (List.length) this) (by decide))]
  simp only [hreq, hh, hthrow]

unseal decURI utf8DecodeLossy in
/-- C3 witness: handler for method `m` throwing `boom`. -/
theorem C3_handler_isolation_witness :
    FlatKV.decode (FlatKV.encode [("type".toList, "request".toList),
        ("id".toList, "1".toList), ("method".toList, "m".toList)])
      = .ok [("type".toList, "request".toList), ("id".toList, "1".toList),
        ("method".toList, "m".toList)] ∧
    WebSocketRpcServer.onMessage [("m".toList, fun _ => .error "boom".toList)]
        ⟨[0], [("abc".toList, ⟨7, true⟩)], false⟩
        (FlatKV.encode [("type".toList, "request".toList), ("id".toList, "1".toList),
          ("method".toList, "m".toList)])
      = (⟨[0], [("abc".toList, ⟨7, true⟩)], false⟩,
         [.send (FlatKV.encode (buildResponseError "1".toList "boom".toList))]) :=
  ⟨by decide,
    C3_handler_isolation [("m".toList, fun _ => .error "boom".toList)]
      ⟨[0], [("abc".toList, ⟨7, true⟩)], false⟩ _
      [("type".toList, "request".toList), ("id".toList, "1".toList),
        ("method".toList, "m".toList)]
      ⟨"1".toList, "m".toList, []⟩ (fun _ => .error "boom".toList) "boom".toList
      (by decide) (by decide) rfl rfl⟩

unseal decURI utf8DecodeLossy in
/-- C10: frame keys go to the wire unvalidated and unescaped: a key
containing the US pair separator (outside `[A-Za-z0-9._-]`) breaks the
round trip — the encoded frame decodes to the empty record, not the
original; the round-trip guarantee needs the key-alphabet
precondition. -/
theorem C10_unvalidated_keys :
    FlatKV.decode (FlatKV.encode [(['a', usChar], "v".toList)]) = .ok [] ∧
    FlatKV.decode (FlatKV.encode [(['a', usChar], "v".toList)])
      ≠ .ok [(['a', usChar], "v".toList)] := by
  constructor
  · decide
  · decide

unseal decURI utf8DecodeLossy in
/-- C1 witness: a frame whose value contains the US separator, `%` and
a non-ASCII character. -/
theorem C1_frame_roundtrip_witness :
    wfFrame [("type".toList, "request".toList),
             ("a.b-c".toList, "h\x1Fi %é".toList)] ∧
    FlatKV.decode (FlatKV.encode [("type".toList, "request".toList),
        ("a.b-c".toList, "h\x1Fi %é".toList)])
      = .ok [("type".toList, "request".toList),
             ("a.b-c".toList, "h\x1Fi %é".toList)] :=
  ⟨by constructor
      · decide
      · decide,
    C1_frame_roundtrip _ (by
      constructor
      · decide
      · decide)⟩

unseal utf8DecodeLossy in
/-- C5 counterexample: `%1z` is not a valid two-digit hexadecimal
escape, yet `decodeValue` returns the character U+0001 instead of
failing, because `parseInt('1z', 16)` parses the prefix `1`. -/
theorem C5_counterexample :
    decodeValue ['%', '1', 'z'] = .ok [Char.ofNat 1] := by
  decide

/-- C5 (amended): value decoding fails with the decode error exactly as
the scan reaches a `%` followed by fewer than two characters, or by two
characters from which `parseInt(·, 16)` can extract no hexadecimal
value at all (e.g. `zz`); escape bodies with a parsable hex prefix such
as `1z` are accepted instead. -/
theorem C5_malformed_escape_fails (a u : Str) (ha : '%' ∉ a)
    (hu : u.length < 2 ∨ ∃ c1 c2 r, u = c1 :: c2 :: r ∧ jsParseIntHex [c1, c2] = none) :
    decodeValue (a ++ '%' :: u) = .error "Invalid percent-encoding" := by
  unfold decodeValue
  suffices h : decodeValueBytes (a ++ '%' :: u) = .error "Invalid percent-encoding" by
    rw [h]
    rfl
  induction a with
  | nil =>
    simp only [List.nil_append]
    rcases hu with hu | ⟨c1, c2, r, rfl, hnone⟩
    · rcases u with _ | ⟨c1, _ | ⟨c2, r⟩⟩
      · rfl
      · rfl
      · simp only [List.length_cons] at hu
        omega
    · rw [decodeValueBytes_escape_cons, hnone]
  | cons c a' ih =>
    have hc : c ≠ '%' := fun he => ha (he ▸ List.mem_cons_self c a')
    have ih' := ih fun hm => ha (List.mem_cons_of_mem c hm)
    simp only [List.cons_append]
    rw [decodeValueBytes_cons_other hc, ih']
    rfl

/-- C5 witness: `A%zz` fails. -/
theorem C5_malformed_escape_fails_witness :
    ('%' ∉ ("A".toList : Str)) ∧ jsParseIntHex ['z', 'z'] = none ∧
    decodeValue ("A".toList ++ '%' :: ['z', 'z']) = .error "Invalid percent-encoding" :=
  ⟨by decide, by decide,
    C5_malformed_escape_fails "A".toList ['z', 'z'] (by decide)
      (Or.inr ⟨'z', 'z', [], rfl, by decide⟩)⟩

/-- C6 counterexample: the singleton list containing the empty string
encodes to `[]`, which decodes to the empty list — not to `['']`. -/
theorem C6_counterexample :
    encodeArray [([] : Str)] = "[]".toList ∧
    decodeArray (encodeArray [([] : Str)]) = .ok [] ∧
    decodeArray (encodeArray [([] : Str)]) ≠ .ok [([] : Str)] := by
  refine ⟨by decide, by decide, by decide⟩

/-- C6 (amended): array round trip holds for every list of values whose
string forms contain no `;` (numeric string forms in particular),
except the singleton list of the empty string, whose encoding collapses
to `[]`; the empty list encodes to `[]` and `[]` decodes to the empty
list. -/
theorem C6_array_roundtrip (vs : List Str) (h1 : ∀ v ∈ vs, ';' ∉ v) (h2 : vs ≠ [[]]) :
    decodeArray (encodeArray vs) = .ok vs ∧
    encodeArray [] = "[]".toList ∧
    decodeArray "[]".toList = .ok ([] : List Str) := by
  refine ⟨?_, by decide, by decide⟩
  rcases vs with _ | ⟨v, rest⟩
  · decide
  · have henc : encodeArray (v :: rest) =
        '[' :: (List.intercalate [';'] (v :: rest) ++ [']']) := by
      simp [encodeArray]
    have hsplit : (List.intercalate [';'] (v :: rest)).splitOn ';' = v :: rest :=
      List.splitOn_intercalate _ ';' (fun l hl => h1 l hl) (by simp)
    have hinner_ne : List.intercalate [';'] (v :: rest) ≠ [] := by
      intro he
      rw [he] at hsplit
      have hnil : ([] : Str).splitOn ';' = [[]] := rfl
      rw [hnil] at hsplit
      injection hsplit with hv hrest
      exact h2 (by rw [← hv, ← hrest])
    have hlast : (('[' : Char) :: (List.intercalate [';'] (v :: rest) ++ [']'])).getLast?
        = some ']' := by
      rw [show ('[' : Char) :: (List.intercalate [';'] (v :: rest) ++ [']'])
          = ('[' :: List.intercalate [';'] (v :: rest)) ++ [']'] by simp]
      exact List.getLast?_concat _
    have hdrop : ((('[' : Char) :: (List.intercalate [';'] (v :: rest) ++ [']'])).drop
        1).dropLast = List.intercalate [';'] (v :: rest) := by
      simp
    rw [henc]
    simp only [decodeArray, List.head?_cons, hdrop]
    rw [if_pos ⟨trivial, hlast⟩]
    rw [if_neg (by
      intro hc
      exact hinner_ne (List.isEmpty_iff.mp hc))]
    rw [hsplit]

/-- C6 witness: numeric string forms round-trip. -/
theorem C6_array_roundtrip_witness :
    (∀ v ∈ [("1.5".toList : Str), "-2".toList], ';' ∉ v) ∧
    decodeArray (encodeArray ["1.5".toList, "-2".toList])
      = .ok ["1.5".toList, "-2".toList] :=
  ⟨by decide,
    (C6_array_roundtrip ["1.5".toList, "-2".toList] (by decide) (by decide)).1⟩

/-- C7 counterexample: a request frame with extra key `result.x` parses
with `result.x` dropped from the args, although the key is present in
the frame and is not a reserved envelope key. -/
theorem C7_counterexample :
    parseRequest [("type".toList, "request".toList), ("id".toList, "1".toList),
        ("method".toList, "m".toList), ("result.x".toList, "v".toList)]
      = .ok ⟨"1".toList, "m".toList, []⟩ ∧
    lookupRec [("type".toList, "request".toList), ("id".toList, "1".toList),
        ("method".toList, "m".toList), ("result.x".toList, "v".toList)]
      "result.x".toList = some "v".toList ∧
    ("result.x".toList : Str) ∉ reservedKeys := by
  refine ⟨by decide, by decide, by decide⟩

theorem parseRequest_args_shape {record : FlatRecord} {req : RpcRequest}
    (h : parseRequest record = .ok req) :
    req.args = record.foldl (fun acc p =>
        if strStarts "argument.".toList p.1 then
          if (lookupRec acc (p.1.drop "argument.".toList.length)).isSome then acc
          else recordSet acc (p.1.drop "argument.".toList.length) p.2
        else acc)
      (record.foldl (fun acc p =>
        if p.1 ∈ reservedKeys then acc
        else if strStarts "result.".toList p.1 then acc
        else if strStarts "argument.".toList p.1 then acc
        else recordSet acc p.1 p.2) []) := by
  simp only [parseRequest] at h
  split_ifs at h <;>
    first
      | exact Except.noConfusion h
      | (injection h with h; subst h; rfl)

theorem fold_skip_argument (record : FlatRecord) (acc : FlatRecord)
    (hpre : ∀ p ∈ record, strStarts "argument.".toList p.1 = false) :
    record.foldl (fun acc p =>
        if strStarts "argument.".toList p.1 then
          if (lookupRec acc (p.1.drop "argument.".toList.length)).isSome then acc
          else recordSet acc (p.1.drop "argument.".toList.length) p.2
        else acc) acc = acc := by
  induction record generalizing acc with
  | nil => rfl
  | cons p rest ih =>
    simp only [List.foldl_cons]
    rw [if_neg (by
      rw [hpre p (by simp)]
      exact Bool.noConfusion)]
    exact ih acc fun q hq => hpre q (by simp [hq])

theorem fold_args_filter : ∀ (record acc : FlatRecord),
    (∀ p ∈ record, strStarts "result.".toList p.1 = false ∧
        strStarts "argument.".toList p.1 = false) →
    ((record.map Prod.fst).Nodup) →
    (∀ p ∈ record, ∀ q ∈ acc, q.1 ≠ p.1) →
    record.foldl (fun acc p =>
        if p.1 ∈ reservedKeys then acc
        else if strStarts "result.".toList p.1 then acc
        else if strStarts "argument.".toList p.1 then acc
        else recordSet acc p.1 p.2) acc
      = acc ++ record.filter fun p => !(decide (p.1 ∈ reservedKeys)) := by
  intro record
  induction record with
  | nil =>
    intro acc _ _ _
    simp
  | cons p rest ih =>
    intro acc hpre hnd hdisj
    simp only [List.foldl_cons, List.filter_cons]
    obtain ⟨hr, ha⟩ := hpre p (by simp)
    have hnd' : (rest.map Prod.fst).Nodup := (List.nodup_cons.mp (by simpa using hnd)).2
    have hknotin : p.1 ∉ rest.map Prod.fst := (List.nodup_cons.mp (by simpa using hnd)).1
    by_cases hres : p.1 ∈ reservedKeys
    · rw [if_pos hres]
      rw [show (!decide (p.1 ∈ reservedKeys)) = false by simp [hres]]
      simp only [Bool.false_eq_true, if_false]
      exact ih acc (fun q hq => hpre q (by simp [hq])) hnd'
        (fun q hq r hrq => hdisj q (by simp [hq]) r hrq)
    · rw [if_neg hres, if_neg (by rw [hr]; simp), if_neg (by rw [ha]; simp)]
      rw [recordSet_fresh p.2 (fun q hq => hdisj p (by simp) q hq)]
      rw [show (!decide (p.1 ∈ reservedKeys)) = true by simp [hres]]
      simp only [if_true]
      have hdisj' : ∀ q ∈ rest, ∀ r ∈ acc ++ [(p.1, p.2)], r.1 ≠ q.1 := by
        intro q hq r hrq
        rcases List.mem_append.mp hrq with hrq | hrq
        · exact hdisj q (by simp [hq]) r hrq
        · simp only [List.mem_singleton] at hrq
          subst hrq
          intro he
          exact hknotin (he ▸ List.mem_map_of_mem Prod.fst hq)
      rw [ih (acc ++ [(p.1, p.2)]) (fun q hq => hpre q (by simp [hq])) hnd' hdisj']
      simp

/-- C7 (amended): for a request frame with valid envelope, unique keys
and no key starting with `result.` or `argument.` (the back-compat
forms the parser treats specially), the parsed args are exactly the
frame entries other than the reserved envelope keys, each under its
original key. -/
theorem C7_args_passthrough (record : FlatRecord) (req : RpcRequest)
    (hok : parseRequest record = .ok req)
    (hpre : ∀ p ∈ record, strStarts "result.".toList p.1 = false ∧
        strStarts "argument.".toList p.1 = false)
    (hnd : (record.map Prod.fst).Nodup) :
    req.args = record.filter fun p => !(decide (p.1 ∈ reservedKeys)) := by
  rw [parseRequest_args_shape hok]
  rw [fold_skip_argument record _ fun p hp => (hpre p hp).2]
  rw [fold_args_filter record [] hpre hnd (by simp)]
  simp

/-- C7 witness. -/
theorem C7_args_passthrough_witness :
    parseRequest [("type".toList, "request".toList), ("id".toList, "7".toList),
        ("method".toList, "do".toList), ("x".toList, "1".toList),
        ("status".toList, "s".toList)]
      = .ok ⟨"7".toList, "do".toList, [("x".toList, "1".toList)]⟩ ∧
    (⟨"7".toList, "do".toList, [("x".toList, "1".toList)]⟩ : RpcRequest).args
      = List.filter (fun p => !(decide (p.1 ∈ reservedKeys)))
        [("type".toList, "request".toList), ("id".toList, "7".toList),
          ("method".toList, "do".toList), ("x".toList, "1".toList),
          ("status".toList, "s".toList)] :=
  ⟨by decide,
    C7_args_passthrough [("type".toList, "request".toList), ("id".toList, "7".toList),
        ("method".toList, "do".toList), ("x".toList, "1".toList),
        ("status".toList, "s".toList)]
      ⟨"7".toList, "do".toList, [("x".toList, "1".toList)]⟩
      (by decide) (by decide) (by decide)⟩

end ResoBot
